import Mathlib

set_option maxHeartbeats 1000000

/-!
Verification of the `AsyncTaskQueue` sequential async task queue from
`src/lab3.js` (the identical class also appears in `src/tests/test.js`).

The JavaScript runtime is single-threaded and cooperative: between two
suspension points (`await` of a pending promise) a run of JS code executes
atomically.  The embedding therefore models the queue as a state machine
whose steps are exactly the synchronous bursts of the source code:

* `add st t`  — the synchronous body of `add(asyncTask)` (src/lab3.js 85-97):
  push `{task, resolve, reject}` onto `this.tasks`, and if `!this.isRunning`
  call `this.process()`.  Calling the `async` method `process` runs its body
  synchronously up to its first `await`, which is `await task()`
  (src/lab3.js 115); this synchronous prefix is part of the same step.
* `tick st`   — delivery of the awaited in-flight task's settlement to the
  suspended drain loop: `resolve(result)` / `reject(error)` for that entry,
  then the `while` loop continues synchronously until it either suspends on
  the next `await task()` or empties `this.tasks` and clears `isRunning`
  (src/lab3.js 110-124).

A submitted task is opaque to the queue (the spec: "entirely opaque to the
queue; the queue only observes whether the task's asynchronous operation
succeeded or failed"), so it is embedded by what the queue can observe of it:

* `TaskSpec.invalid e` — invoking the value throws synchronously (a
  non-callable value, or a function that throws before its first await).
  In `const result = await task()` the throw happens while evaluating
  `task()`, so control reaches the `catch` without suspending: the drain
  loop continues synchronously to the next entry.
* `TaskSpec.normal d out` — invocation returns a promise that settles with
  `out` after `d + 1` ticks (the `await` always suspends at least once,
  even for an already-settled promise).

The state records an append-only trace of observable events: `start i`
(entry `i`'s task is invoked, src/lab3.js 115), `settle i out` (entry `i`'s
outcome handle is resolved/rejected, src/lab3.js 116/118), `drainStart`
(the log at src/lab3.js 108, right after `isRunning` is set) and `drainEnd`
(the log at src/lab3.js 123, right after `isRunning` is cleared).
Outcome handles are identified by the submission index (`nextId` counter):
the promise returned by the `k`-th call to `add` is handle `k`.
-/

instance {α ε : Type} [DecidableEq ε] [DecidableEq α] : DecidableEq (Except ε α) :=
  fun a b =>
    match a, b with
    | .ok x, .ok y =>
      if h : x = y then .isTrue (by rw [h]) else .isFalse (by intro hc; cases hc; exact h rfl)
    | .error x, .error y =>
      if h : x = y then .isTrue (by rw [h]) else .isFalse (by intro hc; cases hc; exact h rfl)
    | .ok _, .error _ => .isFalse (by intro hc; cases hc)
    | .error _, .ok _ => .isFalse (by intro hc; cases hc)

/-- What the queue observes of one submitted value: either invoking it
throws synchronously (`invalid`, covering non-callable values), or it
yields an asynchronous operation that settles with a fixed outcome after a
fixed number of event-loop deliveries (`normal`). -/
inductive TaskSpec (α ε : Type) where
  | invalid (e : ε)
  | normal (delay : Nat) (outcome : Except ε α)
  deriving DecidableEq, Repr

/-- The outcome a task delivers to its entry's handle when the queue runs
it: an `invalid` task rejects with the thrown error, a `normal` task
settles with its own outcome. -/
def outcomeOf {α ε : Type} : TaskSpec α ε → Except ε α
  | .invalid e => .error e
  | .normal _ out => out

/-- One element of `this.tasks`: the object `{task, resolve, reject}`
pushed by `add` (src/lab3.js 87-91).  The resolve/reject handles are
identified by the submission index `id`. -/
structure Entry (α ε : Type) where
  id : Nat
  task : TaskSpec α ε
  deriving DecidableEq, Repr

/-- The in-flight task the drain loop is suspended on at `await task()`
(src/lab3.js 115): which entry it belongs to, how many further event-loop
deliveries remain before its promise settles, and its outcome. -/
structure InFlight (α ε : Type) where
  id : Nat
  remaining : Nat
  outcome : Except ε α
  deriving DecidableEq, Repr

/-- Observable events of one queue instance, in chronological order. -/
inductive Ev (α ε : Type) where
  | start (id : Nat)
  | settle (id : Nat) (out : Except ε α)
  | drainStart
  | drainEnd
  deriving DecidableEq, Repr

/-- The queue's state between synchronous bursts: the two fields of the
class (`tasks`, `isRunning`, src/lab3.js 76-77), the suspension point of
the drain loop (`current`), the next submission index, and the event
trace. -/
structure QueueState (α ε : Type) where
  tasks : List (Entry α ε)
  isRunning : Bool
  current : Option (InFlight α ε)
  nextId : Nat
  events : List (Ev α ε)
  deriving DecidableEq, Repr

/-- A fresh queue: `this.tasks = []; this.isRunning = false`
(src/lab3.js 76-77). -/
def initState {α ε : Type} : QueueState α ε := ⟨[], false, none, 0, []⟩

/-- The synchronous portion of the `while` loop of `process`
(src/lab3.js 110-124), run on the pending list `l` (kept equal to
`st.tasks`): shift the head entry and invoke its task.  An `invalid` task
throws into the `catch`, `reject(error)` settles its handle, and the loop
continues synchronously; a `normal` task suspends the loop at
`await task()`.  When the list is empty the loop exits, clears
`isRunning` and logs completion. -/
def processGo {α ε : Type} : List (Entry α ε) → QueueState α ε → QueueState α ε
  | [], st =>
    { st with tasks := [], isRunning := false, events := st.events ++ [.drainEnd] }
  | e :: rest, st =>
    match e.task with
    | .invalid err =>
      processGo rest
        { st with tasks := rest,
                  events := st.events ++ [.start e.id, .settle e.id (.error err)] }
    | .normal d out =>
      { st with tasks := rest,
                current := some ⟨e.id, d, out⟩,
                events := st.events ++ [.start e.id] }

/-- The `while` loop of `process`, entered at `st.tasks`. -/
def processLoop {α ε : Type} (st : QueueState α ε) : QueueState α ε :=
  processGo st.tasks st

/-- The synchronous prefix of `async process()` (src/lab3.js 102-124):
the re-entrancy guard `if (this.isRunning || this.tasks.length === 0)
return`, then `this.isRunning = true`, the start log, and the loop up to
its first suspension. -/
def process {α ε : Type} (st : QueueState α ε) : QueueState α ε :=
  if st.isRunning || st.tasks.isEmpty then st
  else processLoop { st with isRunning := true, events := st.events ++ [.drainStart] }

/-- The synchronous body of `add(asyncTask)` (src/lab3.js 85-97): push the
entry, and if the queue is not running, call `process` (whose synchronous
prefix runs inside this same burst).  The returned outcome handle is the
submission index `st.nextId`. -/
def add {α ε : Type} (st : QueueState α ε) (t : TaskSpec α ε) : QueueState α ε :=
  let st' := { st with tasks := st.tasks ++ [(⟨st.nextId, t⟩ : Entry α ε)], nextId := st.nextId + 1 }
  if st'.isRunning then st' else process st'

/-- Delivery of the in-flight task's settlement to the suspended drain
loop: `resolve(result)` or `reject(error)` for that entry
(src/lab3.js 116/118), then the loop continues synchronously.  A task
whose promise is not yet due simply gets one tick closer.  With no
suspended loop a tick changes nothing. -/
def tick {α ε : Type} (st : QueueState α ε) : QueueState α ε :=
  match st.current with
  | none => st
  | some c =>
    if c.remaining = 0 then
      processGo st.tasks
        { st with current := none, events := st.events ++ [.settle c.id c.outcome] }
    else
      { st with current := some ⟨c.id, c.remaining - 1, c.outcome⟩ }

/-- `getCompletedTaskCount` (src/lab3.js 130-132): returns
`this.tasks.length`. -/
def getCompletedTaskCount {α ε : Type} (st : QueueState α ε) : Nat :=
  st.tasks.length

/-- External stimuli: a call to `add`, or one event-loop delivery. -/
inductive Cmd (α ε : Type) where
  | submit (t : TaskSpec α ε)
  | tick
  deriving DecidableEq, Repr

/-- One stimulus applied to a state. -/
def step {α ε : Type} (st : QueueState α ε) : Cmd α ε → QueueState α ε
  | .submit t => add st t
  | .tick => tick st

/-- Run a schedule of stimuli from a given state. -/
def runFrom {α ε : Type} (st : QueueState α ε) (cs : List (Cmd α ε)) : QueueState α ε :=
  cs.foldl step st

/-- Run a schedule of stimuli on a fresh queue. -/
def run {α ε : Type} (cs : List (Cmd α ε)) : QueueState α ε :=
  runFrom initState cs

/-- Submission indices whose task invocation has begun, in invocation
order. -/
def startedIds {α ε : Type} (es : List (Ev α ε)) : List Nat :=
  es.filterMap fun e => match e with | .start i => some i | _ => none

/-- Submission indices whose outcome handle has been settled, in
settlement order. -/
def settledIds {α ε : Type} (es : List (Ev α ε)) : List Nat :=
  es.filterMap fun e => match e with | .settle i _ => some i | _ => none

/-- Handle settlements `(submission index, outcome)`, in settlement
order. -/
def settlements {α ε : Type} (es : List (Ev α ε)) : List (Nat × Except ε α) :=
  es.filterMap fun e => match e with | .settle i o => some (i, o) | _ => none

/-- How many drain loops have been started. -/
def drainStartCount {α ε : Type} (es : List (Ev α ε)) : Nat :=
  es.countP fun e => match e with | .drainStart => true | _ => false

/-- How many drain loops have run to completion. -/
def drainEndCount {α ε : Type} (es : List (Ev α ε)) : Nat :=
  es.countP fun e => match e with | .drainEnd => true | _ => false

/-- The tasks a schedule submits, in submission order: the task at index
`i` is the one whose outcome handle is `i`. -/
def submitsOf {α ε : Type} (cs : List (Cmd α ε)) : List (TaskSpec α ε) :=
  cs.filterMap fun c => match c with | .submit t => some t | _ => none

-- Sanity checks on concrete runs (three tasks, the second one failing).
example :
    settlements (run ([Cmd.submit (TaskSpec.normal 1 (Except.ok 10)),
                       Cmd.submit (TaskSpec.normal 0 (Except.error 7)),
                       Cmd.submit (TaskSpec.normal 0 (Except.ok 30)),
                       Cmd.tick, Cmd.tick, Cmd.tick, Cmd.tick] : List (Cmd Nat Nat))).events
      = [(0, Except.ok 10), (1, Except.error 7), (2, Except.ok 30)] := by decide

example :
    startedIds (run ([Cmd.submit (TaskSpec.normal 1 (Except.ok 10)),
                      Cmd.submit (TaskSpec.invalid 7),
                      Cmd.submit (TaskSpec.normal 0 (Except.ok 30)),
                      Cmd.tick, Cmd.tick, Cmd.tick] : List (Cmd Nat Nat))).events
      = [0, 1, 2] := by decide

example :
    (run ([Cmd.submit (TaskSpec.normal 0 (Except.ok 1)), Cmd.tick] :
        List (Cmd Nat Nat))).isRunning = false := by decide

example :
    drainStartCount (run ([Cmd.submit (TaskSpec.normal 3 (Except.ok 1)),
                           Cmd.submit (TaskSpec.normal 0 (Except.ok 2))] :
        List (Cmd Nat Nat))).events = 1 := by decide

/-! ### Bookkeeping lemmas for the observables -/

@[simp] theorem startedIds_nil {α ε : Type} : startedIds ([] : List (Ev α ε)) = [] := rfl

@[simp] theorem startedIds_append {α ε : Type} (es1 es2 : List (Ev α ε)) :
    startedIds (es1 ++ es2) = startedIds es1 ++ startedIds es2 :=
  List.filterMap_append ..

@[simp] theorem startedIds_cons_start {α ε : Type} (i : Nat) (es : List (Ev α ε)) :
    startedIds (.start i :: es) = i :: startedIds es := rfl

@[simp] theorem startedIds_cons_settle {α ε : Type} (i : Nat) (out : Except ε α)
    (es : List (Ev α ε)) : startedIds (.settle i out :: es) = startedIds es := rfl

@[simp] theorem startedIds_cons_drainStart {α ε : Type} (es : List (Ev α ε)) :
    startedIds (.drainStart :: es) = startedIds es := rfl

@[simp] theorem startedIds_cons_drainEnd {α ε : Type} (es : List (Ev α ε)) :
    startedIds (.drainEnd :: es) = startedIds es := rfl

@[simp] theorem settledIds_nil {α ε : Type} : settledIds ([] : List (Ev α ε)) = [] := rfl

@[simp] theorem settledIds_append {α ε : Type} (es1 es2 : List (Ev α ε)) :
    settledIds (es1 ++ es2) = settledIds es1 ++ settledIds es2 :=
  List.filterMap_append ..

@[simp] theorem settledIds_cons_start {α ε : Type} (i : Nat) (es : List (Ev α ε)) :
    settledIds (.start i :: es) = settledIds es := rfl

@[simp] theorem settledIds_cons_settle {α ε : Type} (i : Nat) (out : Except ε α)
    (es : List (Ev α ε)) : settledIds (.settle i out :: es) = i :: settledIds es := rfl

@[simp] theorem settledIds_cons_drainStart {α ε : Type} (es : List (Ev α ε)) :
    settledIds (.drainStart :: es) = settledIds es := rfl

@[simp] theorem settledIds_cons_drainEnd {α ε : Type} (es : List (Ev α ε)) :
    settledIds (.drainEnd :: es) = settledIds es := rfl

@[simp] theorem settlements_nil {α ε : Type} : settlements ([] : List (Ev α ε)) = [] := rfl

@[simp] theorem settlements_append {α ε : Type} (es1 es2 : List (Ev α ε)) :
    settlements (es1 ++ es2) = settlements es1 ++ settlements es2 :=
  List.filterMap_append ..

@[simp] theorem settlements_cons_start {α ε : Type} (i : Nat) (es : List (Ev α ε)) :
    settlements (.start i :: es) = settlements es := rfl

@[simp] theorem settlements_cons_settle {α ε : Type} (i : Nat) (out : Except ε α)
    (es : List (Ev α ε)) : settlements (.settle i out :: es) = (i, out) :: settlements es := rfl

@[simp] theorem settlements_cons_drainStart {α ε : Type} (es : List (Ev α ε)) :
    settlements (.drainStart :: es) = settlements es := rfl

@[simp] theorem settlements_cons_drainEnd {α ε : Type} (es : List (Ev α ε)) :
    settlements (.drainEnd :: es) = settlements es := rfl

theorem mem_settledIds {α ε : Type} {es : List (Ev α ε)} {i : Nat} :
    i ∈ settledIds es ↔ ∃ out, Ev.settle i out ∈ es := by
  constructor
  · intro h
    rcases List.mem_filterMap.mp h with ⟨a, ha, hfa⟩
    cases a with
    | start j => simp at hfa
    | settle j out =>
      simp at hfa
      exact ⟨out, hfa ▸ ha⟩
    | drainStart => simp at hfa
    | drainEnd => simp at hfa
  · rintro ⟨out, hmem⟩
    exact List.mem_filterMap.mpr ⟨Ev.settle i out, hmem, rfl⟩

theorem mem_settlements {α ε : Type} {es : List (Ev α ε)} {i : Nat} {out : Except ε α} :
    (i, out) ∈ settlements es ↔ Ev.settle i out ∈ es := by
  constructor
  · intro h
    rcases List.mem_filterMap.mp h with ⟨a, ha, hfa⟩
    cases a with
    | start j => simp at hfa
    | settle j o =>
      simp at hfa
      obtain ⟨rfl, rfl⟩ := hfa
      exact ha
    | drainStart => simp at hfa
    | drainEnd => simp at hfa
  · intro hmem
    exact List.mem_filterMap.mpr ⟨Ev.settle i out, hmem, rfl⟩

@[simp] theorem submitsOf_nil {α ε : Type} : submitsOf ([] : List (Cmd α ε)) = [] := rfl

@[simp] theorem submitsOf_append {α ε : Type} (cs1 cs2 : List (Cmd α ε)) :
    submitsOf (cs1 ++ cs2) = submitsOf cs1 ++ submitsOf cs2 :=
  List.filterMap_append ..

@[simp] theorem submitsOf_cons_submit {α ε : Type} (t : TaskSpec α ε) (cs : List (Cmd α ε)) :
    submitsOf (.submit t :: cs) = t :: submitsOf cs := rfl

@[simp] theorem submitsOf_cons_tick {α ε : Type} (cs : List (Cmd α ε)) :
    submitsOf (.tick :: cs) = submitsOf cs := rfl

@[simp] theorem submitsOf_replicate_tick {α ε : Type} (m : Nat) :
    submitsOf (List.replicate m (Cmd.tick : Cmd α ε)) = [] := by
  induction m with
  | zero => rfl
  | succ k ih => rw [List.replicate_succ, submitsOf_cons_tick, ih]

@[simp] theorem drainStartCount_append {α ε : Type} (es1 es2 : List (Ev α ε)) :
    drainStartCount (es1 ++ es2) = drainStartCount es1 + drainStartCount es2 :=
  List.countP_append ..

@[simp] theorem drainEndCount_append {α ε : Type} (es1 es2 : List (Ev α ε)) :
    drainEndCount (es1 ++ es2) = drainEndCount es1 + drainEndCount es2 :=
  List.countP_append ..

theorem run_append {α ε : Type} (cs1 cs2 : List (Cmd α ε)) :
    run (cs1 ++ cs2) = runFrom (run cs1) cs2 :=
  List.foldl_append ..

theorem runFrom_cons {α ε : Type} (st : QueueState α ε) (c : Cmd α ε) (cs : List (Cmd α ε)) :
    runFrom st (c :: cs) = runFrom (step st c) cs := rfl

theorem run_snoc {α ε : Type} (cs : List (Cmd α ε)) (c : Cmd α ε) :
    run (cs ++ [c]) = step (run cs) c :=
  run_append cs [c]

/-! ### FIFO well-formedness of a trace

`WF es` says: wherever a task invocation `start j` appears in the trace,
the outcome handles of all earlier submissions `i < j` were already settled
strictly before that point.  This is the temporal content of the FIFO
guarantee: a later-submitted task never begins before every
earlier-submitted task has fully completed. -/

def WF {α ε : Type} (es : List (Ev α ε)) : Prop :=
  ∀ es1 j es2, es = es1 ++ Ev.start j :: es2 → ∀ i, i < j → ∃ out, Ev.settle i out ∈ es1

theorem wf_nil {α ε : Type} : WF ([] : List (Ev α ε)) := by
  intro es1 j es2 h
  exact absurd h (by simp)

theorem append_singleton_cases {β : Type} {l l1 l2 : List β} {x y : β}
    (h : l ++ [x] = l1 ++ y :: l2) :
    (l1 = l ∧ y = x ∧ l2 = []) ∨ ∃ l2', l2 = l2' ++ [x] ∧ l = l1 ++ y :: l2' := by
  rcases List.eq_nil_or_concat l2 with h2 | ⟨l2', b, rfl⟩
  · subst h2
    have := List.append_inj' h (by simp)
    exact Or.inl ⟨this.1.symm, (by simpa using this.2.symm), rfl⟩
  · have h' : l ++ [x] = (l1 ++ y :: l2') ++ [b] := by simpa using h
    have := List.append_inj' h' (by simp)
    have hb : b = x := by simpa using this.2.symm
    exact Or.inr ⟨l2', by simp [List.concat_eq_append, hb], this.1⟩

theorem wf_snoc {α ε : Type} {es : List (Ev α ε)} {x : Ev α ε} (h : WF es)
    (hx : ∀ j, x = Ev.start j → ∀ i, i < j → ∃ out, Ev.settle i out ∈ es) :
    WF (es ++ [x]) := by
  intro es1 j es2 hdec i hi
  rcases append_singleton_cases hdec with ⟨rfl, hy, rfl⟩ | ⟨l2', _, hes⟩
  · exact hx j hy.symm i hi
  · exact h es1 j l2' hes i hi

theorem wf_snoc_snoc {α ε : Type} {es : List (Ev α ε)} {x y : Ev α ε} (h : WF es)
    (hx : ∀ j, x = Ev.start j → ∀ i, i < j → ∃ out, Ev.settle i out ∈ es)
    (hy : ∀ j, y = Ev.start j → ∀ i, i < j → ∃ out, Ev.settle i out ∈ es ++ [x]) :
    WF (es ++ [x, y]) := by
  have : es ++ [x, y] = (es ++ [x]) ++ [y] := by simp
  rw [this]
  exact wf_snoc (wf_snoc h hx) hy

/-! ### The queue invariant

For a reachable state of a queue that has seen the submissions `specs`
(in order), writing `n = specs.length`, `m = st.tasks.length` and
`s = n - m` (the number of entries whose task invocation has begun):

* `this.tasks` holds exactly the not-yet-started entries, in submission
  order, each carrying its own submitted task;
* invocations happened exactly for submissions `0, …, s-1`, in order;
* every settlement delivered exactly the settled entry's own task outcome;
* the queue is idle exactly when no task is in flight, and an idle queue
  has no pending entries and every submission settled;
* when a task is in flight it is the most recently started entry, and all
  entries before it (and only those) are settled;
* the trace is FIFO well-formed, and the number of drain loops started
  exceeds the number finished by one exactly while the queue is running
  (so at most one drain loop is ever active). -/

structure QInv {α ε : Type} (specs : List (TaskSpec α ε)) (st : QueueState α ε) : Prop where
  nextId_eq : st.nextId = specs.length
  tasks_le : st.tasks.length ≤ specs.length
  tasks_ids : st.tasks.map Entry.id =
    List.range' (specs.length - st.tasks.length) st.tasks.length
  tasks_specs : ∀ e ∈ st.tasks, specs[e.id]? = some e.task
  started : startedIds st.events = List.range (specs.length - st.tasks.length)
  settle_val : ∀ i out, Ev.settle i out ∈ st.events →
    ∃ t, specs[i]? = some t ∧ outcomeOf t = out
  idle_none : st.isRunning = false → st.current = none ∧ st.tasks = []
  run_some : st.isRunning = true → ∃ c, st.current = some c
  cur_spec : ∀ c, st.current = some c →
    c.id + 1 = specs.length - st.tasks.length ∧
    (∃ d, specs[c.id]? = some (.normal d c.outcome)) ∧
    settledIds st.events = List.range c.id
  cur_none_settled : st.current = none →
    settledIds st.events = List.range (specs.length - st.tasks.length)
  wf : WF st.events
  drains : drainStartCount st.events =
    drainEndCount st.events + (if st.isRunning then 1 else 0)

/-! ### Helper lemmas on ranges and indexing -/

theorem range'_concat_one (s n : Nat) :
    List.range' s (n + 1) = List.range' s n ++ [s + n] := by
  have h := @List.range'_concat 1 s n
  simpa using h

theorem range'_cons_one (s n : Nat) :
    List.range' s (n + 1) = s :: List.range' (s + 1) n := by
  simpa using List.range'_succ s n 1

theorem getElem?_append_left' {β : Type} {l1 l2 : List β} {i : Nat} (h : i < l1.length) :
    (l1 ++ l2)[i]? = l1[i]? := by
  rw [List.getElem?_append]
  simp [h]

theorem getElem?_append_length {β : Type} (l : List β) (a : β) :
    (l ++ [a])[l.length]? = some a := by
  rw [List.getElem?_append]
  simp

theorem lt_length_of_getElem? {β : Type} {l : List β} {i : Nat} {a : β}
    (h : l[i]? = some a) : i < l.length := by
  by_contra hc
  rw [List.getElem?_eq_none (by omega)] at h
  cases h

@[simp] theorem drainStartCount_nil {α ε : Type} :
    drainStartCount ([] : List (Ev α ε)) = 0 := rfl

@[simp] theorem drainEndCount_nil {α ε : Type} :
    drainEndCount ([] : List (Ev α ε)) = 0 := rfl

@[simp] theorem drainStartCount_cons_start {α ε : Type} (i : Nat) (es : List (Ev α ε)) :
    drainStartCount (.start i :: es) = drainStartCount es := by
  simp [drainStartCount, List.countP_cons]

@[simp] theorem drainStartCount_cons_settle {α ε : Type} (i : Nat) (out : Except ε α)
    (es : List (Ev α ε)) : drainStartCount (.settle i out :: es) = drainStartCount es := by
  simp [drainStartCount, List.countP_cons]

@[simp] theorem drainStartCount_cons_drainStart {α ε : Type} (es : List (Ev α ε)) :
    drainStartCount (.drainStart :: es) = drainStartCount es + 1 := by
  simp [drainStartCount, List.countP_cons]

@[simp] theorem drainStartCount_cons_drainEnd {α ε : Type} (es : List (Ev α ε)) :
    drainStartCount (.drainEnd :: es) = drainStartCount es := by
  simp [drainStartCount, List.countP_cons]

@[simp] theorem drainEndCount_cons_start {α ε : Type} (i : Nat) (es : List (Ev α ε)) :
    drainEndCount (.start i :: es) = drainEndCount es := by
  simp [drainEndCount, List.countP_cons]

@[simp] theorem drainEndCount_cons_settle {α ε : Type} (i : Nat) (out : Except ε α)
    (es : List (Ev α ε)) : drainEndCount (.settle i out :: es) = drainEndCount es := by
  simp [drainEndCount, List.countP_cons]

@[simp] theorem drainEndCount_cons_drainStart {α ε : Type} (es : List (Ev α ε)) :
    drainEndCount (.drainStart :: es) = drainEndCount es := by
  simp [drainEndCount, List.countP_cons]

@[simp] theorem drainEndCount_cons_drainEnd {α ε : Type} (es : List (Ev α ε)) :
    drainEndCount (.drainEnd :: es) = drainEndCount es + 1 := by
  simp [drainEndCount, List.countP_cons]

/-! ### Preservation of the invariant by the drain loop -/


theorem processGo_inv {α ε : Type} (specs : List (TaskSpec α ε)) :
    ∀ (l : List (Entry α ε)) (st : QueueState α ε),
      st.tasks = l →
      st.isRunning = true →
      st.current = none →
      st.nextId = specs.length →
      l.length ≤ specs.length →
      l.map Entry.id = List.range' (specs.length - l.length) l.length →
      (∀ e ∈ l, specs[e.id]? = some e.task) →
      startedIds st.events = List.range (specs.length - l.length) →
      settledIds st.events = List.range (specs.length - l.length) →
      (∀ i out, Ev.settle i out ∈ st.events → ∃ t, specs[i]? = some t ∧ outcomeOf t = out) →
      WF st.events →
      drainStartCount st.events = drainEndCount st.events + 1 →
      QInv specs (processGo l st) := by
  intro l
  induction l with
  | nil =>
    intro st htasks hrun hcur hnext hle hids hspecs hstart hsettled hval hwf hdr
    simp only [List.length_nil, Nat.sub_zero] at hstart hsettled
    show QInv specs
      ({ st with tasks := [], isRunning := false, events := st.events ++ [Ev.drainEnd] })
    refine ⟨hnext, by simp, by simp [List.range'], by simp, ?_, ?_, ?_, ?_, ?_, ?_, ?_, ?_⟩
    · simpa using hstart
    · intro i out hmem
      rw [List.mem_append] at hmem
      rcases hmem with hmem | hmem
      · exact hval i out hmem
      · rcases List.mem_singleton.mp hmem with h2
        cases h2
    · intro _
      exact ⟨hcur, rfl⟩
    · intro hr
      cases hr
    · intro c hc
      have hc' : st.current = some c := hc
      rw [hcur] at hc'
      cases hc'
    · intro _
      simpa using hsettled
    · exact wf_snoc hwf (fun j hj => nomatch hj)
    · simpa using hdr
  | cons e rest ih =>
    intro st htasks hrun hcur hnext hle hids hspecs hstart hsettled hval hwf hdr
    obtain ⟨eid, et⟩ := e
    simp only [List.length_cons] at hle hids hstart hsettled
    rw [range'_cons_one] at hids
    simp only [List.map_cons] at hids
    have heid : eid = specs.length - (rest.length + 1) := (List.cons.injEq _ _ _ _).mp hids |>.1
    have hrest : rest.map Entry.id =
        List.range' (specs.length - (rest.length + 1) + 1) rest.length :=
      (List.cons.injEq _ _ _ _).mp hids |>.2
    have harith : specs.length - (rest.length + 1) + 1 = specs.length - rest.length := by
      omega
    have hsucc : (specs.length - (rest.length + 1)).succ = specs.length - rest.length := by
      omega
    have hspec_head : specs[eid]? = some et := hspecs ⟨eid, et⟩ (List.mem_cons_self _ _)
    cases et with
    | invalid err =>
      show QInv specs (processGo rest
        { st with tasks := rest,
                  events := st.events ++ [Ev.start eid, Ev.settle eid (Except.error err)] })
      apply ih
      · rfl
      · exact hrun
      · exact hcur
      · exact hnext
      · omega
      · rw [harith] at hrest
        exact hrest
      · intro e' he'
        exact hspecs e' (List.mem_cons_of_mem _ he')
      · show startedIds (st.events ++ [Ev.start eid, Ev.settle eid (Except.error err)]) =
          List.range (specs.length - rest.length)
        simp only [startedIds_append, startedIds_cons_start, startedIds_cons_settle,
          startedIds_nil, hstart, heid]
        rw [← List.range_succ, hsucc]
      · show settledIds (st.events ++ [Ev.start eid, Ev.settle eid (Except.error err)]) =
          List.range (specs.length - rest.length)
        simp only [settledIds_append, settledIds_cons_start, settledIds_cons_settle,
          settledIds_nil, hsettled, heid]
        rw [← List.range_succ, hsucc]
      · intro i out hmem
        rw [List.mem_append] at hmem
        rcases hmem with hmem | hmem
        · exact hval i out hmem
        · rcases List.mem_cons.mp hmem with h2 | h2
          · cases h2
          · rcases List.mem_singleton.mp h2 with h3
            injection h3 with h4 h5
            subst h4
            subst h5
            exact ⟨TaskSpec.invalid err, hspec_head, rfl⟩
      · apply wf_snoc_snoc hwf
        · intro j hj i hi
          injection hj with hj'
          rw [← hj', heid] at hi
          have hm : i ∈ settledIds st.events := by
            rw [hsettled]
            exact List.mem_range.mpr hi
          exact mem_settledIds.mp hm
        · intro j hj
          cases hj
      · simpa using hdr
    | normal d out =>
      show QInv specs
        ({ st with tasks := rest, current := some ⟨eid, d, out⟩,
                   events := st.events ++ [Ev.start eid] })
      refine ⟨hnext, ?_, ?_, ?_, ?_, ?_, ?_, ?_, ?_, ?_, ?_, ?_⟩
      · show rest.length ≤ specs.length
        omega
      · show rest.map Entry.id = List.range' (specs.length - rest.length) rest.length
        rw [← harith]
        exact hrest
      · intro e' he'
        exact hspecs e' (List.mem_cons_of_mem _ he')
      · show startedIds (st.events ++ [Ev.start eid]) = List.range (specs.length - rest.length)
        simp only [startedIds_append, startedIds_cons_start, startedIds_nil,
          List.append_nil, hstart, heid]
        rw [← List.range_succ, hsucc]
      · intro i o hmem
        rw [List.mem_append] at hmem
        rcases hmem with hmem | hmem
        · exact hval i o hmem
        · rcases List.mem_singleton.mp hmem with h2
          cases h2
      · intro hr
        have hr' : st.isRunning = false := hr
        rw [hrun] at hr'
        cases hr'
      · intro _
        exact ⟨⟨eid, d, out⟩, rfl⟩
      · intro c hc
        have hc' : some (⟨eid, d, out⟩ : InFlight α ε) = some c := hc
        injection hc' with hc''
        subst hc''
        refine ⟨?_, ⟨d, by rw [hspec_head]⟩, ?_⟩
        · show eid + 1 = specs.length - rest.length
          omega
        · show settledIds (st.events ++ [Ev.start eid]) = List.range eid
          simp only [settledIds_append, settledIds_cons_start, settledIds_nil,
            List.append_nil, hsettled]
          rw [heid]
      · intro hnone
        cases hnone
      · apply wf_snoc hwf
        intro j hj i hi
        injection hj with hj'
        rw [← hj', heid] at hi
        have hm : i ∈ settledIds st.events := by
          rw [hsettled]
          exact List.mem_range.mpr hi
        exact mem_settledIds.mp hm
      · simp [hrun, hdr]

/-! ### Preservation of the invariant by `add` and `tick` -/

theorem add_inv {α ε : Type} {specs : List (TaskSpec α ε)} {st : QueueState α ε}
    (h : QInv specs st) (t : TaskSpec α ε) : QInv (specs ++ [t]) (add st t) := by
  by_cases hr : st.isRunning = true
  · -- The queue is draining: the entry is appended at the tail; nothing else happens.
    have hadd : add st t =
        { st with tasks := st.tasks ++ [(⟨st.nextId, t⟩ : Entry α ε)], nextId := st.nextId + 1 } := by
      simp [add, hr]
    rw [hadd]
    have hmn : specs.length - st.tasks.length + st.tasks.length = specs.length := by
      have := h.tasks_le
      omega
    have h1 : specs.length + 1 - (st.tasks.length + 1) = specs.length - st.tasks.length := by
      omega
    refine ⟨?_, ?_, ?_, ?_, ?_, ?_, ?_, ?_, ?_, ?_, h.wf, ?_⟩
    · show st.nextId + 1 = (specs ++ [t]).length
      simp [h.nextId_eq]
    · show (st.tasks ++ [(⟨st.nextId, t⟩ : Entry α ε)]).length ≤ (specs ++ [t]).length
      have := h.tasks_le
      simp only [List.length_append, List.length_cons, List.length_nil]
      omega
    · show (st.tasks ++ [(⟨st.nextId, t⟩ : Entry α ε)]).map Entry.id =
        List.range' ((specs ++ [t]).length - (st.tasks ++ [(⟨st.nextId, t⟩ : Entry α ε)]).length)
          (st.tasks ++ [(⟨st.nextId, t⟩ : Entry α ε)]).length
      simp only [List.map_append, List.map_cons, List.map_nil, h.tasks_ids, h.nextId_eq,
        List.length_append, List.length_cons, List.length_nil]
      rw [h1, range'_concat_one, hmn]
    · intro e' he'
      rcases List.mem_append.mp he' with he' | he'
      · have hmem : e'.id ∈ List.range' (specs.length - st.tasks.length) st.tasks.length := by
          rw [← h.tasks_ids]
          exact List.mem_map_of_mem Entry.id he'
        have hlt : e'.id < specs.length := by
          have := List.mem_range'_1.mp hmem
          omega
        rw [getElem?_append_left' hlt]
        exact h.tasks_specs e' he'
      · rw [List.mem_singleton] at he'
        subst he'
        show (specs ++ [t])[st.nextId]? = some t
        rw [h.nextId_eq]
        exact getElem?_append_length specs t
    · show startedIds st.events =
        List.range ((specs ++ [t]).length - (st.tasks ++ [(⟨st.nextId, t⟩ : Entry α ε)]).length)
      simp only [List.length_append, List.length_cons, List.length_nil]
      rw [h1]
      exact h.started
    · intro i out hmem
      obtain ⟨t0, hs, ho⟩ := h.settle_val i out hmem
      have hi : i < specs.length := lt_length_of_getElem? hs
      refine ⟨t0, ?_, ho⟩
      rw [getElem?_append_left' hi]
      exact hs
    · intro hf
      have hf' : st.isRunning = false := hf
      rw [hr] at hf'
      cases hf'
    · intro _
      exact h.run_some hr
    · intro c hc
      have hc' : st.current = some c := hc
      obtain ⟨hid, ⟨d, hd⟩, hsd⟩ := h.cur_spec c hc'
      refine ⟨?_, ⟨d, ?_⟩, hsd⟩
      · show c.id + 1 = (specs ++ [t]).length - (st.tasks ++ [(⟨st.nextId, t⟩ : Entry α ε)]).length
        simp only [List.length_append, List.length_cons, List.length_nil]
        omega
      · have hlt : c.id < specs.length := lt_length_of_getElem? hd
        rw [getElem?_append_left' hlt]
        exact hd
    · intro hnone
      have hn' : st.current = none := hnone
      rcases h.run_some hr with ⟨c, hc⟩
      rw [hn'] at hc
      cases hc
    · simpa [hr] using h.drains
  · -- The queue is idle: by the invariant `tasks` is empty, so `process` starts a
    -- drain loop synchronously and immediately invokes the new entry's task.
    have hfalse : st.isRunning = false := by simpa using hr
    obtain ⟨hcur0, htasks0⟩ := h.idle_none hfalse
    have hstart0 : startedIds st.events = List.range specs.length := by
      have hs := h.started
      rw [htasks0] at hs
      simpa using hs
    have hsettled0 : settledIds st.events = List.range specs.length := by
      have hs := h.cur_none_settled hcur0
      rw [htasks0] at hs
      simpa using hs
    have hadd : add st t = processGo [(⟨st.nextId, t⟩ : Entry α ε)]
        { st with tasks := [(⟨st.nextId, t⟩ : Entry α ε)], nextId := st.nextId + 1,
                  isRunning := true, events := st.events ++ [Ev.drainStart] } := by
      simp [add, process, processLoop, hfalse, htasks0]
    rw [hadd]
    apply processGo_inv
    · rfl
    · rfl
    · exact hcur0
    · show st.nextId + 1 = (specs ++ [t]).length
      simp [h.nextId_eq]
    · simp
    · show [(⟨st.nextId, t⟩ : Entry α ε)].map Entry.id =
        List.range' ((specs ++ [t]).length - 1) 1
      simp [h.nextId_eq, List.range']
    · intro e' he'
      rw [List.mem_singleton] at he'
      subst he'
      show (specs ++ [t])[st.nextId]? = some t
      rw [h.nextId_eq]
      exact getElem?_append_length specs t
    · show startedIds (st.events ++ [Ev.drainStart]) =
        List.range ((specs ++ [t]).length - 1)
      simp [hstart0]
    · show settledIds (st.events ++ [Ev.drainStart]) =
        List.range ((specs ++ [t]).length - 1)
      simp [hsettled0]
    · intro i out hmem
      rw [List.mem_append] at hmem
      rcases hmem with hmem | hmem
      · obtain ⟨t0, hs, ho⟩ := h.settle_val i out hmem
        have hi : i < specs.length := lt_length_of_getElem? hs
        refine ⟨t0, ?_, ho⟩
        rw [getElem?_append_left' hi]
        exact hs
      · rcases List.mem_singleton.mp hmem with h2
        cases h2
    · exact wf_snoc h.wf (fun j hj => nomatch hj)
    · have hd := h.drains
      rw [hfalse] at hd
      simpa using hd

theorem tick_inv {α ε : Type} {specs : List (TaskSpec α ε)} {st : QueueState α ε}
    (h : QInv specs st) : QInv specs (tick st) := by
  cases hc : st.current with
  | none =>
    have ht : tick st = st := by simp [tick, hc]
    rw [ht]
    exact h
  | some c =>
    have hrun : st.isRunning = true := by
      by_contra hr
      have hfalse : st.isRunning = false := by simpa using hr
      rcases h.idle_none hfalse with ⟨hn, _⟩
      rw [hc] at hn
      cases hn
    obtain ⟨hid, ⟨d, hsp⟩, hsd⟩ := h.cur_spec c hc
    by_cases hrem : c.remaining = 0
    · -- The awaited promise settles: the entry's handle is settled with the task's
      -- own outcome and the loop resumes synchronously.
      have ht : tick st = processGo st.tasks
          { st with current := none, events := st.events ++ [Ev.settle c.id c.outcome] } := by
        simp [tick, hc, hrem]
      rw [ht]
      apply processGo_inv
      · rfl
      · exact hrun
      · rfl
      · exact h.nextId_eq
      · exact h.tasks_le
      · exact h.tasks_ids
      · exact h.tasks_specs
      · simpa using h.started
      · show settledIds (st.events ++ [Ev.settle c.id c.outcome]) =
          List.range (specs.length - st.tasks.length)
        simp only [settledIds_append, settledIds_cons_settle, settledIds_nil,
          List.append_nil, hsd]
        have hsucc2 : (c.id).succ = specs.length - st.tasks.length := by omega
        rw [← List.range_succ, hsucc2]
      · intro i out hmem
        rw [List.mem_append] at hmem
        rcases hmem with hmem | hmem
        · exact h.settle_val i out hmem
        · rcases List.mem_singleton.mp hmem with h3
          injection h3 with h4 h5
          subst h4
          subst h5
          exact ⟨TaskSpec.normal d c.outcome, hsp, rfl⟩
      · exact wf_snoc h.wf (fun j hj => nomatch hj)
      · have hd := h.drains
        rw [hrun] at hd
        simpa using hd
    · -- The awaited promise is not yet due: one tick closer, nothing observable.
      have ht : tick st = { st with current := some ⟨c.id, c.remaining - 1, c.outcome⟩ } := by
        simp [tick, hc, hrem]
      rw [ht]
      refine ⟨h.nextId_eq, h.tasks_le, h.tasks_ids, h.tasks_specs, h.started, h.settle_val,
        ?_, ?_, ?_, ?_, h.wf, ?_⟩
      · intro hf
        have hf' : st.isRunning = false := hf
        rw [hrun] at hf'
        cases hf'
      · intro _
        exact ⟨⟨c.id, c.remaining - 1, c.outcome⟩, rfl⟩
      · intro c' hc'
        have hc'' : some (⟨c.id, c.remaining - 1, c.outcome⟩ : InFlight α ε) = some c' := hc'
        injection hc'' with h4
        subst h4
        exact ⟨hid, ⟨d, hsp⟩, hsd⟩
      · intro hnone
        have hn' : some (⟨c.id, c.remaining - 1, c.outcome⟩ : InFlight α ε) = none := hnone
        cases hn'
      · simpa using h.drains

/-! ### Every reachable state satisfies the invariant -/

theorem initState_inv {α ε : Type} : QInv ([] : List (TaskSpec α ε)) initState := by
  refine ⟨rfl, by simp [initState], by simp [initState, List.range'], ?_, ?_, ?_, ?_, ?_, ?_,
    ?_, wf_nil, by simp [initState]⟩
  · intro e' he'
    simp [initState] at he'
  · simp [initState]
  · intro i out hmem
    simp [initState] at hmem
  · intro _
    exact ⟨rfl, rfl⟩
  · intro hr
    simp [initState] at hr
  · intro c hcq
    simp [initState] at hcq
  · intro _
    simp [initState]

theorem runFrom_inv {α ε : Type} :
    ∀ (cs : List (Cmd α ε)) {specs : List (TaskSpec α ε)} {st : QueueState α ε},
      QInv specs st → QInv (specs ++ submitsOf cs) (runFrom st cs)
  | [], specs, st, h => by simpa using h
  | .submit t :: cs, specs, st, h => by
    have h2 := runFrom_inv cs (add_inv h t)
    rw [runFrom_cons]
    simpa using h2
  | .tick :: cs, specs, st, h => by
    have h2 := runFrom_inv cs (tick_inv h)
    rw [runFrom_cons]
    simpa using h2

theorem run_inv {α ε : Type} (cs : List (Cmd α ε)) : QInv (submitsOf cs) (run cs) := by
  have h := runFrom_inv cs initState_inv
  simpa using h

/-! ### Termination of draining: enough event-loop ticks settle everything -/

/-- Event-loop deliveries needed to finish one task once invoked: an
`invalid` task fails synchronously (none), a `normal` task's promise
settles on its `d + 1`-st delivery. -/
def ticksFor {α ε : Type} : TaskSpec α ε → Nat
  | .invalid _ => 0
  | .normal d _ => d + 1

/-- Total deliveries needed for a list of pending entries. -/
def tasksTicks {α ε : Type} (l : List (Entry α ε)) : Nat :=
  (l.map fun e => ticksFor e.task).sum

/-- Deliveries needed before the queue next becomes idle. -/
def workLeft {α ε : Type} (st : QueueState α ε) : Nat :=
  tasksTicks st.tasks + (match st.current with | none => 0 | some c => c.remaining + 1)

@[simp] theorem tasksTicks_nil {α ε : Type} : tasksTicks ([] : List (Entry α ε)) = 0 := rfl

@[simp] theorem tasksTicks_cons {α ε : Type} (e : Entry α ε) (l : List (Entry α ε)) :
    tasksTicks (e :: l) = ticksFor e.task + tasksTicks l := by
  simp [tasksTicks]

theorem processGo_workLeft {α ε : Type} :
    ∀ (l : List (Entry α ε)) (st : QueueState α ε), st.current = none →
      workLeft (processGo l st) ≤ tasksTicks l := by
  intro l
  induction l with
  | nil =>
    intro st hcur
    show workLeft ({ st with tasks := [], isRunning := false, events := st.events ++ [Ev.drainEnd] }) ≤ tasksTicks []
    simp [workLeft, hcur]
  | cons e rest ih =>
    intro st hcur
    obtain ⟨eid, et⟩ := e
    cases et with
    | invalid err =>
      show workLeft (processGo rest ({ st with tasks := rest, events := st.events ++ [Ev.start eid, Ev.settle eid (Except.error err)] })) ≤ tasksTicks (⟨eid, TaskSpec.invalid err⟩ :: rest)
      have h1 := ih ({ st with tasks := rest, events := st.events ++ [Ev.start eid, Ev.settle eid (Except.error err)] }) hcur
      simp only [tasksTicks_cons]
      simp [ticksFor]
      exact h1
    | normal d out =>
      show workLeft ({ st with tasks := rest, current := some ⟨eid, d, out⟩, events := st.events ++ [Ev.start eid] }) ≤ tasksTicks (⟨eid, TaskSpec.normal d out⟩ :: rest)
      simp [workLeft, tasksTicks_cons, ticksFor]
      omega

theorem tick_workLeft {α ε : Type} {st : QueueState α ε} {c : InFlight α ε}
    (hc : st.current = some c) : workLeft (tick st) < workLeft st := by
  have hwst : workLeft st = tasksTicks st.tasks + (c.remaining + 1) := by
    simp [workLeft, hc]
  by_cases hrem : c.remaining = 0
  · have ht : tick st = processGo st.tasks
        { st with current := none, events := st.events ++ [Ev.settle c.id c.outcome] } := by
      simp [tick, hc, hrem]
    rw [ht]
    have h1 := processGo_workLeft st.tasks
      { st with current := none, events := st.events ++ [Ev.settle c.id c.outcome] } rfl
    omega
  · have ht : tick st = { st with current := some ⟨c.id, c.remaining - 1, c.outcome⟩ } := by
      simp [tick, hc, hrem]
    rw [ht]
    have h2 : workLeft ({ st with current := some ⟨c.id, c.remaining - 1, c.outcome⟩ }) =
        tasksTicks st.tasks + (c.remaining - 1 + 1) := by
      simp [workLeft]
    omega

theorem ticks_complete {α ε : Type} :
    ∀ (M : Nat) (specs : List (TaskSpec α ε)) (st : QueueState α ε),
      QInv specs st → workLeft st ≤ M →
      (runFrom st (List.replicate M .tick)).tasks = [] ∧
      (runFrom st (List.replicate M .tick)).current = none ∧
      (runFrom st (List.replicate M .tick)).isRunning = false ∧
      settledIds (runFrom st (List.replicate M .tick)).events = List.range specs.length ∧
      QInv specs (runFrom st (List.replicate M .tick)) := by
  intro M
  induction M with
  | zero =>
    intro specs st h hM
    have hcur : st.current = none := by
      cases hc : st.current with
      | none => rfl
      | some c =>
        have h1 : workLeft st = tasksTicks st.tasks + (c.remaining + 1) := by
          simp [workLeft, hc]
        omega
    have hrun : st.isRunning = false := by
      by_contra hb
      have hb' : st.isRunning = true := by simpa using hb
      rcases h.run_some hb' with ⟨c, hcc⟩
      rw [hcur] at hcc
      cases hcc
    obtain ⟨_, htasks⟩ := h.idle_none hrun
    have hsettled : settledIds st.events = List.range specs.length := by
      have hs := h.cur_none_settled hcur
      rw [htasks] at hs
      simpa using hs
    exact ⟨htasks, hcur, hrun, hsettled, h⟩
  | succ M ih =>
    intro specs st h hM
    rw [List.replicate_succ, runFrom_cons]
    cases hc : st.current with
    | none =>
      have ht : step st Cmd.tick = st := by simp [step, tick, hc]
      rw [ht]
      have hrun : st.isRunning = false := by
        by_contra hb
        have hb' : st.isRunning = true := by simpa using hb
        rcases h.run_some hb' with ⟨c, hcc⟩
        rw [hc] at hcc
        cases hcc
      obtain ⟨_, htasks⟩ := h.idle_none hrun
      have hw : workLeft st = 0 := by
        simp [workLeft, hc, htasks]
      exact ih specs st h (by omega)
    | some c =>
      have hlt : workLeft (tick st) < workLeft st := tick_workLeft hc
      exact ih specs (tick st) (tick_inv h) (by have := hlt; omega)

/-! ### Reuse: a drained queue continues exactly like a fresh queue

`Sim k E st st'` says state `st'` is state `st` with every submission
index shifted up by `k` and a fixed earlier trace `E` prepended.  Each
operation of the queue commutes with this renaming, so a queue that has
drained to idle behaves, from then on, exactly like a fresh queue (its
next drain cycle is the fresh queue's first one). -/

def shiftEv {α ε : Type} (k : Nat) : Ev α ε → Ev α ε
  | .start i => .start (i + k)
  | .settle i out => .settle (i + k) out
  | .drainStart => .drainStart
  | .drainEnd => .drainEnd

def shiftEntry {α ε : Type} (k : Nat) (e : Entry α ε) : Entry α ε :=
  ⟨e.id + k, e.task⟩

def shiftFlight {α ε : Type} (k : Nat) (c : InFlight α ε) : InFlight α ε :=
  ⟨c.id + k, c.remaining, c.outcome⟩

def Sim {α ε : Type} (k : Nat) (E : List (Ev α ε)) (st st' : QueueState α ε) : Prop :=
  st'.tasks = st.tasks.map (shiftEntry k) ∧
  st'.isRunning = st.isRunning ∧
  st'.current = st.current.map (shiftFlight k) ∧
  st'.nextId = st.nextId + k ∧
  st'.events = E ++ st.events.map (shiftEv k)

theorem processGo_sim {α ε : Type} {k : Nat} {E : List (Ev α ε)} :
    ∀ (l l' : List (Entry α ε)) (st st' : QueueState α ε),
      Sim k E st st' → l' = l.map (shiftEntry k) →
      Sim k E (processGo l st) (processGo l' st') := by
  intro l
  induction l with
  | nil =>
    intro l' st st' hsim hl
    obtain ⟨h1, h2, h3, h4, h5⟩ := hsim
    subst hl
    simp only [List.map_nil]
    exact ⟨by simp [processGo], by simp [processGo], by simp [processGo, h3],
      by simp [processGo, h4], by simp [processGo, h5, shiftEv]⟩
  | cons e rest ih =>
    intro l' st st' hsim hl
    obtain ⟨h1, h2, h3, h4, h5⟩ := hsim
    subst hl
    obtain ⟨eid, et⟩ := e
    cases et with
    | invalid err =>
      show Sim k E (processGo rest ({ st with tasks := rest, events := st.events ++ [Ev.start eid, Ev.settle eid (Except.error err)] })) (processGo (rest.map (shiftEntry k)) ({ st' with tasks := rest.map (shiftEntry k), events := st'.events ++ [Ev.start (eid + k), Ev.settle (eid + k) (Except.error err)] }))
      apply ih
      · refine ⟨by simp, by simp [h2], by simp [h3], by simp [h4], ?_⟩
        show st'.events ++ [Ev.start (eid + k), Ev.settle (eid + k) (Except.error err)] = E ++ ((st.events ++ [Ev.start eid, Ev.settle eid (Except.error err)]).map (shiftEv k))
        simp [h5, shiftEv]
      · rfl
    | normal d out =>
      show Sim k E ({ st with tasks := rest, current := some ⟨eid, d, out⟩, events := st.events ++ [Ev.start eid] }) ({ st' with tasks := rest.map (shiftEntry k), current := some ⟨eid + k, d, out⟩, events := st'.events ++ [Ev.start (eid + k)] })
      refine ⟨by simp, by simp [h2], by simp [shiftFlight], by simp [h4], ?_⟩
      show st'.events ++ [Ev.start (eid + k)] = E ++ ((st.events ++ [Ev.start eid]).map (shiftEv k))
      simp [h5, shiftEv]

theorem add_sim {α ε : Type} {k : Nat} {E : List (Ev α ε)} {st st' : QueueState α ε}
    (hsim : Sim k E st st') (t : TaskSpec α ε) : Sim k E (add st t) (add st' t) := by
  obtain ⟨h1, h2, h3, h4, h5⟩ := hsim
  by_cases hr : st.isRunning = true
  · have hr' : st'.isRunning = true := by rw [h2, hr]
    have ha : add st t = { st with tasks := st.tasks ++ [(⟨st.nextId, t⟩ : Entry α ε)], nextId := st.nextId + 1 } := by
      simp [add, hr]
    have ha' : add st' t = { st' with tasks := st'.tasks ++ [(⟨st'.nextId, t⟩ : Entry α ε)], nextId := st'.nextId + 1 } := by
      simp [add, hr']
    rw [ha, ha']
    refine ⟨?_, h2, h3, ?_, h5⟩
    · show st'.tasks ++ [(⟨st'.nextId, t⟩ : Entry α ε)] = (st.tasks ++ [(⟨st.nextId, t⟩ : Entry α ε)]).map (shiftEntry k)
      simp [h1, h4, shiftEntry]
    · show st'.nextId + 1 = st.nextId + 1 + k
      omega
  · have hfalse : st.isRunning = false := by simpa using hr
    have hfalse' : st'.isRunning = false := by rw [h2, hfalse]
    have ha : add st t = processGo (st.tasks ++ [(⟨st.nextId, t⟩ : Entry α ε)]) ({ st with tasks := st.tasks ++ [(⟨st.nextId, t⟩ : Entry α ε)], nextId := st.nextId + 1, isRunning := true, events := st.events ++ [Ev.drainStart] }) := by
      simp [add, process, processLoop, hfalse]
    have ha' : add st' t = processGo (st'.tasks ++ [(⟨st'.nextId, t⟩ : Entry α ε)]) ({ st' with tasks := st'.tasks ++ [(⟨st'.nextId, t⟩ : Entry α ε)], nextId := st'.nextId + 1, isRunning := true, events := st'.events ++ [Ev.drainStart] }) := by
      simp [add, process, processLoop, hfalse']
    rw [ha, ha']
    apply processGo_sim
    · refine ⟨?_, by simp, by simp [h3], ?_, ?_⟩
      · show st'.tasks ++ [(⟨st'.nextId, t⟩ : Entry α ε)] = (st.tasks ++ [(⟨st.nextId, t⟩ : Entry α ε)]).map (shiftEntry k)
        simp [h1, h4, shiftEntry]
      · show st'.nextId + 1 = st.nextId + 1 + k
        omega
      · show st'.events ++ [Ev.drainStart] = E ++ ((st.events ++ [Ev.drainStart]).map (shiftEv k))
        simp [h5, shiftEv]
    · show st'.tasks ++ [(⟨st'.nextId, t⟩ : Entry α ε)] = (st.tasks ++ [(⟨st.nextId, t⟩ : Entry α ε)]).map (shiftEntry k)
      simp [h1, h4, shiftEntry]

theorem tick_sim {α ε : Type} {k : Nat} {E : List (Ev α ε)} {st st' : QueueState α ε}
    (hsim : Sim k E st st') : Sim k E (tick st) (tick st') := by
  obtain ⟨h1, h2, h3, h4, h5⟩ := hsim
  cases hc : st.current with
  | none =>
    have hc' : st'.current = none := by rw [h3, hc]; rfl
    have ht : tick st = st := by simp [tick, hc]
    have ht' : tick st' = st' := by simp [tick, hc']
    rw [ht, ht']
    exact ⟨h1, h2, h3, h4, h5⟩
  | some c =>
    have hc' : st'.current = some (shiftFlight k c) := by rw [h3, hc]; rfl
    by_cases hrem : c.remaining = 0
    · have ht : tick st = processGo st.tasks ({ st with current := none, events := st.events ++ [Ev.settle c.id c.outcome] }) := by
        simp [tick, hc, hrem]
      have ht' : tick st' = processGo st'.tasks ({ st' with current := none, events := st'.events ++ [Ev.settle (c.id + k) c.outcome] }) := by
        simp [tick, hc', shiftFlight, hrem]
      rw [ht, ht']
      apply processGo_sim
      · refine ⟨h1, by simp [h2], by simp, by simp [h4], ?_⟩
        show st'.events ++ [Ev.settle (c.id + k) c.outcome] = E ++ ((st.events ++ [Ev.settle c.id c.outcome]).map (shiftEv k))
        simp [h5, shiftEv]
      · exact h1
    · have ht : tick st = { st with current := some ⟨c.id, c.remaining - 1, c.outcome⟩ } := by
        simp [tick, hc, hrem]
      have ht' : tick st' = { st' with current := some ⟨c.id + k, c.remaining - 1, c.outcome⟩ } := by
        simp [tick, hc', shiftFlight, hrem]
      rw [ht, ht']
      exact ⟨h1, h2, by simp [shiftFlight], h4, h5⟩

theorem step_sim {α ε : Type} {k : Nat} {E : List (Ev α ε)} {st st' : QueueState α ε}
    (hsim : Sim k E st st') (c : Cmd α ε) : Sim k E (step st c) (step st' c) := by
  cases c with
  | submit t => exact add_sim hsim t
  | tick => exact tick_sim hsim

theorem runFrom_sim {α ε : Type} {k : Nat} {E : List (Ev α ε)} :
    ∀ (cs : List (Cmd α ε)) {st st' : QueueState α ε},
      Sim k E st st' → Sim k E (runFrom st cs) (runFrom st' cs)
  | [], st, st', hsim => hsim
  | c :: cs, st, st', hsim => by
    rw [runFrom_cons, runFrom_cons]
    exact runFrom_sim cs (step_sim hsim c)

/-! ### The claims -/

/-- C1: tasks begin execution in exact submission (FIFO) order regardless of
individual completion latency.  For every schedule: (1) the invocations that
have happened are exactly those of submissions `0, …, k-1`, in submission
order; (2) wherever the trace records the invocation of submission `j`,
every earlier submission `i < j` already has its settlement strictly before
that point — a later-submitted task never begins before every
earlier-submitted task has fully completed (resolved or rejected); (3)
handle settlements also occur in submission order, so awaiting all
submissions yields results in submission order, not completion-speed
order. -/
theorem fifo_submission_order {α ε : Type} (cs : List (Cmd α ε)) :
    (∃ k, startedIds (run cs).events = List.range k) ∧
    (∀ es1 j es2, (run cs).events = es1 ++ Ev.start j :: es2 →
      ∀ i, i < j → ∃ out, Ev.settle i out ∈ es1) ∧
    (∃ k, settledIds (run cs).events = List.range k) := by
  have h := run_inv cs
  refine ⟨⟨_, h.started⟩, h.wf, ?_⟩
  cases hc : (run cs).current with
  | none => exact ⟨_, h.cur_none_settled hc⟩
  | some c => exact ⟨_, (h.cur_spec c hc).2.2⟩

/-- C2: at most one drain loop runs per queue instance at any time.
(1) `process` on a queue whose `isRunning` flag is set returns immediately,
changing nothing (the re-entrancy guard); (2) submitting two tasks in rapid
succession from an idle state — both inside the burst in which the first
(asynchronous) task has not yet completed — starts exactly one drain loop;
(3) in every reachable state the number of drain loops ever started exceeds
the number that have finished by one exactly while the queue is running, so
at most one drain loop is ever active; (4) no task is ever invoked twice:
the invocation trace has no duplicates. -/
theorem single_drain_loop {α ε : Type} :
    (∀ st : QueueState α ε, st.isRunning = true → process st = st) ∧
    (∀ (d : Nat) (out : Except ε α) (t2 : TaskSpec α ε),
      drainStartCount (run [Cmd.submit (TaskSpec.normal d out), Cmd.submit t2]).events = 1) ∧
    (∀ cs : List (Cmd α ε),
      drainStartCount (run cs).events =
        drainEndCount (run cs).events + (if (run cs).isRunning then 1 else 0)) ∧
    (∀ cs : List (Cmd α ε), (startedIds (run cs).events).Nodup) := by
  refine ⟨?_, ?_, ?_, ?_⟩
  · intro st h
    simp [process, h]
  · intro d out t2
    rfl
  · intro cs
    exact (run_inv cs).drains
  · intro cs
    rw [(run_inv cs).started]
    exact List.nodup_range _

/-- C3: every submitted task's outcome handle settles at most once, always
with that task's own result or failure reason, and — after enough
event-loop deliveries — at least once: for any mix of failing and
succeeding submissions, each handle `i` ends up settled with exactly the
outcome of the task submitted as `i`, unaffected by the other tasks'
outcomes. -/
theorem independent_outcomes {α ε : Type} (cs : List (Cmd α ε)) :
    (settledIds (run cs).events).Nodup ∧
    (∀ i out, (i, out) ∈ settlements (run cs).events →
      ∃ t, (submitsOf cs)[i]? = some t ∧ outcomeOf t = out) ∧
    (∃ m, ∀ i t, (submitsOf cs)[i]? = some t →
      (i, outcomeOf t) ∈ settlements (run (cs ++ List.replicate m Cmd.tick)).events) := by
  have h := run_inv cs
  refine ⟨?_, ?_, ?_⟩
  · cases hc : (run cs).current with
    | none =>
      rw [h.cur_none_settled hc]
      exact List.nodup_range _
    | some c =>
      rw [(h.cur_spec c hc).2.2]
      exact List.nodup_range _
  · intro i out hmem
    exact h.settle_val i out (mem_settlements.mp hmem)
  · refine ⟨workLeft (run cs), ?_⟩
    intro i t hit
    obtain ⟨_, _, _, hsettled, hfin⟩ :=
      ticks_complete (workLeft (run cs)) (submitsOf cs) (run cs) h (Nat.le_refl _)
    rw [run_append]
    have hi : i < (submitsOf cs).length := lt_length_of_getElem? hit
    have hmem : i ∈ settledIds (runFrom (run cs) (List.replicate (workLeft (run cs)) Cmd.tick)).events := by
      rw [hsettled]
      exact List.mem_range.mpr hi
    obtain ⟨out, hout⟩ := mem_settledIds.mp hmem
    obtain ⟨t', ht', hot⟩ := hfin.settle_val i out hout
    rw [hit] at ht'
    injection ht' with ht''
    rw [mem_settlements, ht'', hot]
    exact hout

/-- C4: a task's failure is never fatal to the queue.  For every schedule —
in particular any schedule in which some submitted tasks reject or throw —
enough event-loop deliveries leave the queue idle and empty, with every
submitted entry having been invoked (in order) and every entry's handle
settled with its own outcome: failing entries deliver their error to their
own handle and the drain loop continues through every remaining entry, so
the queue remains usable after any number of failures. -/
theorem failure_not_fatal {α ε : Type} (cs : List (Cmd α ε)) :
    ∃ m,
      (run (cs ++ List.replicate m Cmd.tick)).tasks = [] ∧
      (run (cs ++ List.replicate m Cmd.tick)).isRunning = false ∧
      startedIds (run (cs ++ List.replicate m Cmd.tick)).events =
        List.range (submitsOf cs).length ∧
      (∀ i t, (submitsOf cs)[i]? = some t →
        (i, outcomeOf t) ∈ settlements (run (cs ++ List.replicate m Cmd.tick)).events) := by
  refine ⟨workLeft (run cs), ?_⟩
  obtain ⟨htasks, hcur, hrun, hsettled, hfin⟩ :=
    ticks_complete (workLeft (run cs)) (submitsOf cs) (run cs) (run_inv cs) (Nat.le_refl _)
  rw [run_append]
  refine ⟨htasks, hrun, ?_, ?_⟩
  · have hs := hfin.started
    rw [htasks] at hs
    simpa using hs
  · intro i t hit
    have hi : i < (submitsOf cs).length := lt_length_of_getElem? hit
    have hmem : i ∈ settledIds (runFrom (run cs) (List.replicate (workLeft (run cs)) Cmd.tick)).events := by
      rw [hsettled]
      exact List.mem_range.mpr hi
    obtain ⟨out, hout⟩ := mem_settledIds.mp hmem
    obtain ⟨t', ht', hot⟩ := hfin.settle_val i out hout
    rw [hit] at ht'
    injection ht' with ht''
    rw [mem_settlements, ht'', hot]
    exact hout

/-- C5: `add` never throws synchronously to the caller: in the embedding
`add` is a total function for every argument (including a task that throws
synchronously when invoked, embedded as `TaskSpec.invalid`), and every
failure anywhere in any schedule surfaces only as a rejection of the
failing submission's own outcome handle, carrying that task's own failure
reason. -/
theorem submit_never_throws {α ε : Type} (cs : List (Cmd α ε)) (i : Nat) (e : ε)
    (h : Ev.settle i (Except.error e) ∈ (run cs).events) :
    ∃ t, (submitsOf cs)[i]? = some t ∧ outcomeOf t = Except.error e :=
  (run_inv cs).settle_val i (Except.error e) h

/-- A schedule submitting one synchronously-throwing task. -/
def csInvalidDemo : List (Cmd Nat Nat) := [Cmd.submit (TaskSpec.invalid 5)]

theorem submit_never_throws_witness :
    Ev.settle 0 (Except.error 5) ∈ (run csInvalidDemo).events ∧
    ∃ t, (submitsOf csInvalidDemo)[0]? = some t ∧ outcomeOf t = Except.error 5 :=
  ⟨by decide, submit_never_throws csInvalidDemo 0 5 (by decide)⟩

/-- C6: submitting a non-callable value does not fail at submission time:
on a busy queue the submission settles nothing and merely appends the entry
at the tail; the failure surfaces when the queue attempts to invoke it, as
a rejection of that submission's own outcome handle with the invocation
error (an `InvalidTask` is surfaced exactly like a `TaskFailure`, through
`Except.error` on the entry's own handle); and every other submission still
settles with its own outcome, undisturbed. -/
theorem invalid_task_deferred_failure {α ε : Type} (cs : List (Cmd α ε)) (e : ε)
    (hbusy : (run cs).isRunning = true) :
    settledIds (run (cs ++ [Cmd.submit (TaskSpec.invalid e)])).events
        = settledIds (run cs).events ∧
    (run (cs ++ [Cmd.submit (TaskSpec.invalid e)])).tasks
        = (run cs).tasks ++ [⟨(run cs).nextId, TaskSpec.invalid e⟩] ∧
    (∃ m,
      ((run cs).nextId, (Except.error e : Except ε α)) ∈
        settlements (run (cs ++ [Cmd.submit (TaskSpec.invalid e)] ++ List.replicate m Cmd.tick)).events ∧
      ∀ i t, (submitsOf cs)[i]? = some t →
        (i, outcomeOf t) ∈ settlements (run (cs ++ [Cmd.submit (TaskSpec.invalid e)] ++ List.replicate m Cmd.tick)).events) := by
  have hstep : run (cs ++ [Cmd.submit (TaskSpec.invalid e)]) =
      { run cs with tasks := (run cs).tasks ++ [(⟨(run cs).nextId, TaskSpec.invalid e⟩ : Entry α ε)], nextId := (run cs).nextId + 1 } := by
    rw [run_snoc]
    show add (run cs) (TaskSpec.invalid e) = _
    simp [add, hbusy]
  have hlen : (run cs).nextId = (submitsOf cs).length := (run_inv cs).nextId_eq
  have hspecs' : submitsOf (cs ++ [Cmd.submit (TaskSpec.invalid e)])
      = submitsOf cs ++ [TaskSpec.invalid e] := by simp
  refine ⟨by rw [hstep], by rw [hstep], ?_⟩
  obtain ⟨htasks, hcur, hrun, hsettled, hfin⟩ :=
    ticks_complete (workLeft (run (cs ++ [Cmd.submit (TaskSpec.invalid e)])))
      (submitsOf (cs ++ [Cmd.submit (TaskSpec.invalid e)]))
      (run (cs ++ [Cmd.submit (TaskSpec.invalid e)]))
      (run_inv _) (Nat.le_refl _)
  refine ⟨workLeft (run (cs ++ [Cmd.submit (TaskSpec.invalid e)])), ?_, ?_⟩
  · rw [run_append]
    have hn : (run cs).nextId < (submitsOf (cs ++ [Cmd.submit (TaskSpec.invalid e)])).length := by
      rw [hspecs', hlen]
      simp
    have hmem : (run cs).nextId ∈ settledIds (runFrom (run (cs ++ [Cmd.submit (TaskSpec.invalid e)])) (List.replicate (workLeft (run (cs ++ [Cmd.submit (TaskSpec.invalid e)]))) Cmd.tick)).events := by
      rw [hsettled]
      exact List.mem_range.mpr hn
    obtain ⟨out, hout⟩ := mem_settledIds.mp hmem
    obtain ⟨t', ht', hot⟩ := hfin.settle_val _ out hout
    rw [hspecs', hlen, getElem?_append_length] at ht'
    injection ht' with ht''
    have hoe : (Except.error e : Except ε α) = out := by
      rw [← hot, ← ht'']
      rfl
    rw [mem_settlements, hoe]
    exact hout
  · intro i t hit
    rw [run_append]
    have hi : i < (submitsOf cs).length := lt_length_of_getElem? hit
    have hn2 : i < (submitsOf (cs ++ [Cmd.submit (TaskSpec.invalid e)])).length := by
      rw [hspecs']
      simp only [List.length_append, List.length_cons, List.length_nil]
      omega
    have hmem : i ∈ settledIds (runFrom (run (cs ++ [Cmd.submit (TaskSpec.invalid e)])) (List.replicate (workLeft (run (cs ++ [Cmd.submit (TaskSpec.invalid e)]))) Cmd.tick)).events := by
      rw [hsettled]
      exact List.mem_range.mpr hn2
    obtain ⟨out, hout⟩ := mem_settledIds.mp hmem
    obtain ⟨t', ht', hot⟩ := hfin.settle_val i out hout
    rw [hspecs', getElem?_append_left' hi, hit] at ht'
    injection ht' with ht''
    rw [mem_settlements, ht'', hot]
    exact hout

/-- A schedule that leaves the queue busy (the submitted task needs three
deliveries to settle). -/
def csBusyDemo : List (Cmd Nat Nat) := [Cmd.submit (TaskSpec.normal 2 (Except.ok 1))]

theorem invalid_task_deferred_failure_witness :
    (run csBusyDemo).isRunning = true ∧
    (settledIds (run (csBusyDemo ++ [Cmd.submit (TaskSpec.invalid 5)])).events
        = settledIds (run csBusyDemo).events ∧
      (run (csBusyDemo ++ [Cmd.submit (TaskSpec.invalid 5)])).tasks
        = (run csBusyDemo).tasks ++ [⟨(run csBusyDemo).nextId, TaskSpec.invalid 5⟩] ∧
      (∃ m,
        ((run csBusyDemo).nextId, (Except.error 5 : Except Nat Nat)) ∈
          settlements (run (csBusyDemo ++ [Cmd.submit (TaskSpec.invalid 5)] ++ List.replicate m Cmd.tick)).events ∧
        ∀ i t, (submitsOf csBusyDemo)[i]? = some t →
          (i, outcomeOf t) ∈ settlements (run (csBusyDemo ++ [Cmd.submit (TaskSpec.invalid 5)] ++ List.replicate m Cmd.tick)).events)) :=
  ⟨by decide, invalid_task_deferred_failure csBusyDemo 5 (by decide)⟩

/-- C7: the queue has no terminal state.  Whenever a run has left the queue
idle (`isRunning = false`), the pending list is empty and no task is in
flight — the operational state is exactly a fresh queue's — and every
further schedule behaves exactly as it would on a fresh queue, up to
shifting submission indices by the number of already-used handles and
prepending the already-recorded trace: idle → draining → idle cycles repeat
indefinitely with no residual state. -/
theorem queue_reusable {α ε : Type} (cs : List (Cmd α ε))
    (hidle : (run cs).isRunning = false) :
    (run cs).tasks = [] ∧ (run cs).current = none ∧
    ∀ cs' : List (Cmd α ε),
      Sim (run cs).nextId (run cs).events (run cs') (run (cs ++ cs')) := by
  have h := run_inv cs
  obtain ⟨hcur, htasks⟩ := h.idle_none hidle
  refine ⟨htasks, hcur, ?_⟩
  intro cs'
  rw [run_append]
  apply runFrom_sim
  exact ⟨by simp [initState, htasks], by simp [initState, hidle],
    by simp [initState, hcur], by simp [initState], by simp [initState]⟩

/-- A schedule that drains one task and returns the queue to idle. -/
def csIdleDemo : List (Cmd Nat Nat) := [Cmd.submit (TaskSpec.normal 0 (Except.ok 3)), Cmd.tick]

theorem queue_reusable_witness :
    (run csIdleDemo).isRunning = false ∧
    ((run csIdleDemo).tasks = [] ∧ (run csIdleDemo).current = none ∧
      ∀ cs' : List (Cmd Nat Nat),
        Sim (run csIdleDemo).nextId (run csIdleDemo).events (run cs') (run (csIdleDemo ++ cs'))) :=
  ⟨by decide, queue_reusable csIdleDemo (by decide)⟩

/-- A schedule of three submissions whose first task is still in flight:
two entries remain queued and none has completed. -/
def demoSchedule : List (Cmd Nat Nat) :=
  [Cmd.submit (TaskSpec.normal 1 (Except.ok 1)), Cmd.submit (TaskSpec.normal 1 (Except.ok 2)),
   Cmd.submit (TaskSpec.normal 1 (Except.ok 3))]

/-- C8: `getCompletedTaskCount` returns `this.tasks.length`
(src/lab3.js 130-132), the number of entries still pending in the queue —
not the number of completed tasks.  In the demonstration state reached by
submitting three tasks it reports 2 (the two still-queued entries) while
zero tasks have completed: its value is semantically inverted with respect
to its name. -/
theorem completed_count_is_remaining {α ε : Type} :
    (∀ st : QueueState α ε, getCompletedTaskCount st = st.tasks.length) ∧
    getCompletedTaskCount (run demoSchedule) = 2 ∧
    settledIds (run demoSchedule).events = [] :=
  ⟨fun _ => rfl, by decide, by decide⟩

/-- C9: calling `add` on an idle queue begins the submitted task's
invocation inside the `add` call itself.  The single synchronous burst that
is the body of `add` (which runs `process` up to its first suspension
point) already records the new submission's invocation — the invocation
trace grows by exactly this submission's index — and the entry is no
longer in the pending list when `add` returns: the first task is started,
not merely queued. -/
theorem idle_submit_starts_synchronously {α ε : Type} (cs : List (Cmd α ε))
    (t : TaskSpec α ε) (hidle : (run cs).isRunning = false) :
    startedIds (run (cs ++ [Cmd.submit t])).events
        = startedIds (run cs).events ++ [(run cs).nextId] ∧
    (run (cs ++ [Cmd.submit t])).tasks = [] := by
  have h := run_inv cs
  obtain ⟨hcur, htasks⟩ := h.idle_none hidle
  have hadd : run (cs ++ [Cmd.submit t]) = processGo [⟨(run cs).nextId, t⟩] ({ run cs with tasks := [⟨(run cs).nextId, t⟩], nextId := (run cs).nextId + 1, isRunning := true, events := (run cs).events ++ [Ev.drainStart] }) := by
    rw [run_snoc]
    show add (run cs) t = _
    simp [add, process, processLoop, hidle, htasks]
  rw [hadd]
  cases t with
  | invalid err => exact ⟨by simp [processGo], by simp [processGo]⟩
  | normal d out => exact ⟨by simp [processGo], by simp [processGo]⟩

theorem idle_submit_starts_synchronously_witness :
    (run ([] : List (Cmd Nat Nat))).isRunning = false ∧
    (startedIds (run (([] : List (Cmd Nat Nat)) ++ [Cmd.submit (TaskSpec.normal 0 (Except.ok 7))])).events
        = startedIds (run ([] : List (Cmd Nat Nat))).events ++ [(run ([] : List (Cmd Nat Nat))).nextId] ∧
      (run (([] : List (Cmd Nat Nat)) ++ [Cmd.submit (TaskSpec.normal 0 (Except.ok 7))])).tasks = []) :=
  ⟨by decide, idle_submit_starts_synchronously [] (TaskSpec.normal 0 (Except.ok 7)) (by decide)⟩

/-- C10: the queue never becomes idle with work left.  In every reachable
state the active flag being false means the pending list is empty, and
after any single step from a reachable state the flag can only be false
with an empty pending list — the flag is cleared only in the drain loop's
exit branch, synchronously after the emptiness check, with no suspension
point in between at which an entry could be appended. -/
theorem never_idle_with_work {α ε : Type} (cs : List (Cmd α ε)) :
    ((run cs).isRunning = false → (run cs).tasks = []) ∧
    (∀ c : Cmd α ε, (step (run cs) c).isRunning = false → (step (run cs) c).tasks = []) := by
  refine ⟨?_, ?_⟩
  · intro hidle
    exact ((run_inv cs).idle_none hidle).2
  · intro c hoff
    have h := run_inv (cs ++ [c])
    rw [run_snoc] at h
    exact (h.idle_none hoff).2
